import Mathlib

/-!
# Verification of the e2048 board engine

Shallow embedding of `e2048.py`: the 4×4 board of tile exponents, the packed
64-bit board codec (`build_array` / `build_value`), the move engine
(`_only_move_left`, `_only_move`), the hand-coded legality test
(`can_move_to`), the successor-state enumeration (`_potential_fills`,
`potential_states_to`) and the random spawner (`_fill_random`).

Machine integers (`np.int64`) are modelled as `Nat` with explicit `% 2 ^ 64`
where numpy arithmetic wraps; the packed key denotes the 64-bit two's
complement bit pattern.  Python floats for spawn probabilities are modelled
as exact rationals.  Rows are 4-tuples of `Nat`, grids are 4-tuples of rows.
-/

/-- A row of four cells (tile exponents); one row of the source's 4×4 array. -/
abbrev Row : Type := Nat × Nat × Nat × Nat

/-- A 4×4 grid of cells; the source's `np.array` of shape (4,4). -/
abbrev Grid : Type := Row × Row × Row × Row

instance : DecidableEq Row := fun a b => instDecidableEqProd a b

instance : DecidableEq Grid := fun a b => instDecidableEqProd a b

/-- Cell access `row[i]` for `i < 4`. -/
def getCell (r : Row) (i : Nat) : Nat :=
  match i, r with
  | 0, (a, _, _, _) => a
  | 1, (_, b, _, _) => b
  | 2, (_, _, c, _) => c
  | _, (_, _, _, d) => d

/-- Source `row[i:].any()` — some cell at index ≥ i is non-zero (numpy truthiness). -/
def anyFrom (r : Row) (i : Nat) : Prop :=
  match i, r with
  | 0, (a, b, c, d) => a ≠ 0 ∨ b ≠ 0 ∨ c ≠ 0 ∨ d ≠ 0
  | 1, (_, b, c, d) => b ≠ 0 ∨ c ≠ 0 ∨ d ≠ 0
  | 2, (_, _, c, d) => c ≠ 0 ∨ d ≠ 0
  | _, (_, _, _, d) => d ≠ 0

instance (r : Row) (i : Nat) : Decidable (anyFrom r i) := by
  unfold anyFrom; split <;> infer_instance

/-- Source `row[i:3] = row[i+1:4]; row[3] = 0` — drop cell `i`, shift the tail left. -/
def shiftFrom (r : Row) (i : Nat) : Row :=
  match i, r with
  | 0, (_, b, c, d) => (b, c, d, 0)
  | 1, (a, _, c, d) => (a, c, d, 0)
  | _, (a, b, _, d) => (a, b, d, 0)

/-- Source: `while row[counter] == 0: row[counter:3] = row[counter+1:4]; row[3] = 0`.
The loop is unrolled to its maximal three iterations: each shift moves the
first non-zero cell of `row[i:]` one step closer to `i`, so under the loop
guard `row[i:].any()` at most three shifts happen before `row[i] ≠ 0`, and
once `row[i] ≠ 0` the remaining unrolled steps are the identity. -/
def shiftWhileZero (r : Row) (i : Nat) : Row :=
  let r1 := if getCell r i = 0 then shiftFrom r i else r
  let r2 := if getCell r1 i = 0 then shiftFrom r1 i else r1
  let r3 := if getCell r2 i = 0 then shiftFrom r2 i else r2
  r3

/-- First loop of `_only_move_left`: compact the non-zero cells to the left.
Source: `counter = 0; while counter < 3 and row[counter:].any(): … ; counter += 1`.
Exiting the loop early equals skipping the remaining steps, because
`row[i:].any()` is antitone in `i`: once it fails it fails for every larger
`i`, and a skipped step leaves the row unchanged. -/
def compactRow (r : Row) : Row :=
  let r0 := if anyFrom r 0 then shiftWhileZero r 0 else r
  let r1 := if anyFrom r0 1 then shiftWhileZero r0 1 else r0
  let r2 := if anyFrom r1 2 then shiftWhileZero r1 2 else r1
  r2

/-- One iteration of the merge loop of `_only_move_left` at position `i`:
`if row[i] and row[i] == row[i+1]: row[i] += 1; row[i+1:3] = row[i+2:]; row[3] = 0`. -/
def mergeAt (r : Row) (i : Nat) : Row :=
  match i, r with
  | 0, (a, b, c, d) => if a ≠ 0 ∧ a = b then (a + 1, c, d, 0) else (a, b, c, d)
  | 1, (a, b, c, d) => if b ≠ 0 ∧ b = c then (a, b + 1, d, 0) else (a, b, c, d)
  | _, (a, b, c, d) => if c ≠ 0 ∧ c = d then (a, b, c + 1, 0) else (a, b, c, d)

/-- Second loop of `_only_move_left`: `counter = 0; while counter < 3: …`. -/
def mergeRow (r : Row) : Row :=
  mergeAt (mergeAt (mergeAt r 0) 1) 2

/-- The per-row body of `_only_move_left` (the `if row.any():` guard included;
a row failing the guard is all zeros and is left untouched). -/
def mlRow (r : Row) : Row :=
  if anyFrom r 0 then mergeRow (compactRow r) else r

/-- Source `_only_move_left(arr)`: the row transform applied to each of the 4 rows. -/
def only_move_left (g : Grid) : Grid :=
  (mlRow g.1, mlRow g.2.1, mlRow g.2.2.1, mlRow g.2.2.2)

/-- The four movement directions (`Directions.left/right/up/down`). -/
inductive Direction : Type
  | left
  | right
  | up
  | down
deriving DecidableEq

/-- Source `np.rot90(arr, k = 1)`: one quarter turn counterclockwise,
`rot90(m)[i][j] = m[j][3-i]`. -/
def rot90 (g : Grid) : Grid :=
  match g with
  | ((a0, b0, c0, d0), (a1, b1, c1, d1), (a2, b2, c2, d2), (a3, b3, c3, d3)) =>
    ((d0, d1, d2, d3), (c0, c1, c2, c3), (b0, b1, b2, b3), (a0, a1, a2, a3))

/-- Source `_only_move(arr, direction)`: rotate, move left, rotate back.
`np.rot90(_, k)` is `k` quarter turns, i.e. `rot90` iterated `k` times. -/
def only_move (g : Grid) (d : Direction) : Grid :=
  match d with
  | .left => only_move_left g
  | .right => rot90 (rot90 (only_move_left (rot90 (rot90 g))))
  | .up => rot90 (rot90 (rot90 (only_move_left (rot90 g))))
  | .down => rot90 (only_move_left (rot90 (rot90 (rot90 g))))

/-- The per-row test of `can_move_to(arr, Directions.left)` (and, on columns,
of `Directions.up`); Python truthiness `if x:` is `x ≠ 0`. -/
def can_move_row_left (r : Row) : Bool :=
  match r with
  | (a, b, c, d) =>
    if a = 0 ∧ b = 0 ∧ c = 0 ∧ d = 0 then false
    else if d ≠ 0 then decide (d = c ∨ a = 0 ∨ b = 0 ∨ c = 0)
    else if c ≠ 0 then decide (c = b ∨ a = 0 ∨ b = 0)
    else if b ≠ 0 then decide (b = a ∨ a = 0)
    else false

/-- The per-row test of `can_move_to(arr, Directions.right)` (and, on columns,
of `Directions.down`). -/
def can_move_row_right (r : Row) : Bool :=
  match r with
  | (a, b, c, d) =>
    if a = 0 ∧ b = 0 ∧ c = 0 ∧ d = 0 then false
    else if a ≠ 0 then decide (a = b ∨ b = 0 ∨ c = 0 ∨ d = 0)
    else if b ≠ 0 then decide (b = c ∨ c = 0 ∨ d = 0)
    else if c ≠ 0 then decide (c = d ∨ d = 0)
    else false

/-- Column access `arr[:,j]` — column `j` of the grid, read top to bottom. -/
def col (g : Grid) (j : Nat) : Row :=
  (getCell g.1 j, getCell g.2.1 j, getCell g.2.2.1 j, getCell g.2.2.2 j)

/-- Source `can_move_to(arr, direction)`: the hand-coded legality test.  The source's
per-row/per-column loop with early `return True` is the disjunction of the
per-line tests. -/
def can_move_to (g : Grid) (d : Direction) : Bool :=
  match d with
  | .left =>
    can_move_row_left g.1 || can_move_row_left g.2.1 ||
      can_move_row_left g.2.2.1 || can_move_row_left g.2.2.2
  | .right =>
    can_move_row_right g.1 || can_move_row_right g.2.1 ||
      can_move_row_right g.2.2.1 || can_move_row_right g.2.2.2
  | .up =>
    can_move_row_left (col g 0) || can_move_row_left (col g 1) ||
      can_move_row_left (col g 2) || can_move_row_left (col g 3)
  | .down =>
    can_move_row_right (col g 0) || can_move_row_right (col g 1) ||
      can_move_row_right (col g 2) || can_move_row_right (col g 3)

example : mlRow (1, 1, 2, 3) = (2, 2, 3, 0) := by decide
example : mlRow (1, 1, 1, 1) = (2, 2, 0, 0) := by decide
example : mlRow (0, 1, 0, 2) = (1, 2, 0, 0) := by decide
example : mlRow (0, 0, 0, 5) = (5, 0, 0, 0) := by decide
example : mlRow (2, 2, 2, 0) = (3, 2, 0, 0) := by decide

/-- Row-major list of the 16 cells, `arr.flat`. -/
def flatten (g : Grid) : List Nat :=
  match g with
  | ((a0, b0, c0, d0), (a1, b1, c1, d1), (a2, b2, c2, d2), (a3, b3, c3, d3)) =>
    [a0, b0, c0, d0, a1, b1, c1, d1, a2, b2, c2, d2, a3, b3, c3, d3]

/-- Source `build_array(value)`: extract the 16 nibbles of the packed `np.int64` in
row-major order, least significant nibble first.  The source loop
`cur_data[current] = remainder & 0xf; remainder >>= 4` is unrolled; a key is
modelled by its 64-bit two's complement bit pattern as a `Nat < 2 ^ 64`
(numpy's arithmetic right shift and `& 0xf` extract exactly these nibbles,
also for negative keys). -/
def build_array (value : Nat) : Grid :=
  ((value &&& 0xf, value >>> 4 &&& 0xf, value >>> 8 &&& 0xf, value >>> 12 &&& 0xf),
   (value >>> 16 &&& 0xf, value >>> 20 &&& 0xf, value >>> 24 &&& 0xf, value >>> 28 &&& 0xf),
   (value >>> 32 &&& 0xf, value >>> 36 &&& 0xf, value >>> 40 &&& 0xf, value >>> 44 &&& 0xf),
   (value >>> 48 &&& 0xf, value >>> 52 &&& 0xf, value >>> 56 &&& 0xf, value >>> 60 &&& 0xf))

/-- One step of the `build_value` loop: `remainder |= value; remainder <<= 4`
on `np.int64`, whose left shift drops bits above 63 (wraps mod `2 ^ 64`). -/
def packStep (r v : Nat) : Nat :=
  ((r ||| v) <<< 4) % (2 ^ 64)

/-- Source `build_value(arr)`: fold the cells in reverse row-major order
(`sorted_arr = arr.flat[::-1]`), or-shifting the first 15
(`for value in sorted_arr[:15]`), then or-ing the last (`sorted_arr[-1]`). -/
def build_value (g : Grid) : Nat :=
  let sorted := (flatten g).reverse
  (sorted.take 15).foldl packStep 0 ||| sorted.getLastD 0

/-- The 16 (row, column) index pairs in row-major order — the order in which
`np.where(arr == 0)` lists positions. -/
def POSITIONS : List (Nat × Nat) :=
  [(0,0), (0,1), (0,2), (0,3),
   (1,0), (1,1), (1,2), (1,3),
   (2,0), (2,1), (2,2), (2,3),
   (3,0), (3,1), (3,2), (3,3)]

/-- Row access `arr[i]` — row `i` of the grid. -/
def getRow (g : Grid) (i : Nat) : Row :=
  match i, g with
  | 0, (r, _, _, _) => r
  | 1, (_, r, _, _) => r
  | 2, (_, _, r, _) => r
  | _, (_, _, _, r) => r

/-- Cell access `arr[i][j]` for a position pair. -/
def cellAt (g : Grid) (p : Nat × Nat) : Nat :=
  getCell (getRow g p.1) p.2

/-- Assignment `row[j] = v`: the row with cell `j` replaced by `v`. -/
def setCell (r : Row) (j v : Nat) : Row :=
  match j, r with
  | 0, (_, b, c, d) => (v, b, c, d)
  | 1, (a, _, c, d) => (a, v, c, d)
  | 2, (a, b, _, d) => (a, b, v, d)
  | _, (a, b, c, _) => (a, b, c, v)

/-- Assignment `arr[i] = r`: the grid with row `i` replaced by `r`. -/
def setRow (g : Grid) (i : Nat) (r : Row) : Grid :=
  match i, g with
  | 0, (_, r1, r2, r3) => (r, r1, r2, r3)
  | 1, (r0, _, r2, r3) => (r0, r, r2, r3)
  | 2, (r0, r1, _, r3) => (r0, r1, r, r3)
  | _, (r0, r1, r2, _) => (r0, r1, r2, r)

/-- Assignment `arr[p] = v`: the grid with cell `p` replaced by `v`. -/
def place (g : Grid) (p : Nat × Nat) (v : Nat) : Grid :=
  setRow g p.1 (setCell (getRow g p.1) p.2 v)

/-- Source `zip(*np.where(arr == 0))`: the empty-cell positions, row-major. -/
def holes (g : Grid) : List (Nat × Nat) :=
  POSITIONS.filter (fun p => cellAt g p = 0)

/-- An entry of the `_potential_fills` dict: key `(position, new_value)`,
value the float weight, modelled as an exact rational. -/
abbrev FillEntry : Type := ((Nat × Nat) × Nat) × ℚ

/-- Body of the `_potential_fills` loop: for each hole position `p`,
`holes[p, 1] = 1.0 / len(hole_positions) * 0.9` and
`holes[p, 2] = 1.0 / len(hole_positions) * 0.1`.  The `(position, value)`
keys are pairwise distinct, so the dict is this association list. -/
def potential_fills_aux (k : Nat) : List (Nat × Nat) → List FillEntry
  | [] => []
  | p :: t =>
    ((p, 1), 1 / (k : ℚ) * (9 / 10)) :: ((p, 2), 1 / (k : ℚ) * (1 / 10)) ::
      potential_fills_aux k t

/-- Source `_potential_fills(arr)`. -/
def potential_fills (g : Grid) : List FillEntry :=
  potential_fills_aux (holes g).length (holes g)

/-- A `value → chances` dict, as an association list keyed by packed keys. -/
abbrev ChanceDict : Type := List (Nat × ℚ)

/-- Update `dict[key] = v`: replace the entry if the key is present, else append. -/
def dictInsert (m : ChanceDict) (key : Nat) (v : ℚ) : ChanceDict :=
  if m.any (fun kv => kv.1 = key) then
    m.map (fun kv => if kv.1 = key then (key, v) else kv)
  else
    m ++ [(key, v)]

/-- Lookup `dict[key]`. -/
def dlookup : ChanceDict → Nat → Option ℚ
  | [], _ => none
  | (k, v) :: t, key => if k = key then some v else dlookup t key

/-- Sum `sum(d.values())`. -/
def sumVals (m : ChanceDict) : ℚ :=
  (m.map Prod.snd).sum

/-- Source `potential_states_to(arr, direction)`: `None` when the move leaves the
board unchanged (`(arr == moved_arr).all()`); otherwise the dict obtained by
storing, for every fill `(position, new_value) : chances`, the packed value
of the filled moved board with its chances. -/
def potential_states_to (g : Grid) (d : Direction) : Option ChanceDict :=
  let moved := only_move g d
  if moved = g then none
  else
    some ((potential_fills moved).foldl
      (fun m e => dictInsert m (build_value (place moved e.1.1 e.1.2)) e.2) [])

/-- Source `_fill_random(arr)`, with the random draw injected: `np.random.choice`
over `range(len(positions_fills))` always returns a valid index, modelled by
the parameter `choice` taken modulo the number of entries.  Raises
(`None` here) exactly when `positions_fills` is empty; otherwise sets the
chosen `(position, new_value)` fill. -/
def fill_random (g : Grid) (choice : Nat) : Option Grid :=
  let fills := potential_fills g
  if fills = [] then none
  else
    let e := fills.getD (choice % fills.length) (((0, 0), 0), 0)
    some (place g e.1.1 e.1.2)

example : build_array 0x03 = ((3,0,0,0),(0,0,0,0),(0,0,0,0),(0,0,0,0)) := by decide
example : build_value ((3,0,0,0),(0,0,0,0),(0,0,0,0),(0,0,0,0)) = 0x03 := by decide
example : build_value (build_array 0x12345678) = 0x12345678 := by decide

/-- The non-zero cells of a row form a prefix: no zero has a non-zero cell
to its right. -/
def noGaps (r : Row) : Prop :=
  (r.2.1 ≠ 0 → r.1 ≠ 0) ∧ (r.2.2.1 ≠ 0 → r.2.1 ≠ 0) ∧ (r.2.2.2 ≠ 0 → r.2.2.1 ≠ 0)

/-- No two adjacent equal non-zero cells in a row. -/
def noAdjEq (r : Row) : Prop :=
  (r.1 ≠ 0 → r.1 ≠ r.2.1) ∧ (r.2.1 ≠ 0 → r.2.1 ≠ r.2.2.1) ∧
    (r.2.2.1 ≠ 0 → r.2.2.1 ≠ r.2.2.2)

/-- Some cell of the row is zero. -/
def hasZero (r : Row) : Prop :=
  r.1 = 0 ∨ r.2.1 = 0 ∨ r.2.2.1 = 0 ∨ r.2.2.2 = 0

instance (r : Row) : Decidable (noGaps r) := by
  unfold noGaps; infer_instance

instance (r : Row) : Decidable (noAdjEq r) := by
  unfold noAdjEq; infer_instance

instance (r : Row) : Decidable (hasZero r) := by
  unfold hasZero; infer_instance

/-- All cells of the row are ≤ m. -/
def boundedRow (r : Row) (m : Nat) : Prop :=
  r.1 ≤ m ∧ r.2.1 ≤ m ∧ r.2.2.1 ≤ m ∧ r.2.2.2 ≤ m

set_option maxHeartbeats 1600000 in
/-- The transform of any row has no interior gaps. -/
theorem mlRow_noGaps (r : Row) : noGaps (mlRow r) := by
  obtain ⟨a, b, c, d⟩ := r
  rcases eq_or_ne a 0 with rfl | ha <;> rcases eq_or_ne b 0 with rfl | hb <;>
    rcases eq_or_ne c 0 with rfl | hc <;> rcases eq_or_ne d 0 with rfl | hd <;>
    simp_all [noGaps, mlRow, compactRow, shiftWhileZero, anyFrom, getCell, shiftFrom] <;>
    (try simp only [mergeRow]) <;>
    (repeat (first | split_ifs | simp only [mergeAt])) <;>
    (try simp_all) <;> omega

set_option maxHeartbeats 1600000 in
/-- A gap-free row with no adjacent equal non-zero cells is a fixed point of
the row transform. -/
theorem mlRow_fixed (r : Row) (hg : noGaps r) (ha : noAdjEq r) : mlRow r = r := by
  obtain ⟨a, b, c, d⟩ := r
  rcases eq_or_ne a 0 with rfl | ha0 <;> rcases eq_or_ne b 0 with rfl | hb0 <;>
    rcases eq_or_ne c 0 with rfl | hc0 <;> rcases eq_or_ne d 0 with rfl | hd0 <;>
    simp_all [noGaps, noAdjEq, mlRow, compactRow, shiftWhileZero, anyFrom, getCell,
      shiftFrom] <;>
    (try simp only [mergeRow]) <;>
    (repeat (first | split_ifs | simp only [mergeAt])) <;>
    (try simp_all) <;> omega

set_option maxHeartbeats 1600000 in
/-- A gap-free row with some adjacent equal non-zero pair is changed by the
row transform. -/
theorem mlRow_moves (r : Row) (hg : noGaps r) (ha : ¬ noAdjEq r) : mlRow r ≠ r := by
  obtain ⟨a, b, c, d⟩ := r
  rcases eq_or_ne a 0 with rfl | ha0 <;> rcases eq_or_ne b 0 with rfl | hb0 <;>
    rcases eq_or_ne c 0 with rfl | hc0 <;> rcases eq_or_ne d 0 with rfl | hd0 <;>
    simp_all [noGaps, noAdjEq, mlRow, compactRow, shiftWhileZero, anyFrom, getCell,
      shiftFrom, Prod.mk.injEq] <;>
    (try simp only [mergeRow]) <;>
    (repeat (first | split_ifs | simp only [mergeAt])) <;>
    (try simp_all [Prod.mk.injEq]) <;> omega

set_option maxHeartbeats 1600000 in
/-- A row transform output has a zero cell unless the row was left unchanged
(a merge frees a cell, and compaction only moves existing zeros). -/
theorem mlRow_zero_or_eq (r : Row) : hasZero (mlRow r) ∨ mlRow r = r := by
  obtain ⟨a, b, c, d⟩ := r
  rcases eq_or_ne a 0 with rfl | ha0 <;> rcases eq_or_ne b 0 with rfl | hb0 <;>
    rcases eq_or_ne c 0 with rfl | hc0 <;> rcases eq_or_ne d 0 with rfl | hd0 <;>
    simp_all [hasZero, mlRow, compactRow, shiftWhileZero, anyFrom, getCell,
      shiftFrom, Prod.mk.injEq] <;>
    (try simp only [mergeRow]) <;>
    (repeat (first | split_ifs | simp only [mergeAt])) <;>
    (try simp_all [Prod.mk.injEq]) <;> omega

set_option maxHeartbeats 1600000 in
/-- Each output cell of the row transform is at most one above the largest
input cell (a cell merges at most once in a pass). -/
theorem mlRow_bound (r : Row) (m : Nat) (h : boundedRow r m) :
    boundedRow (mlRow r) (m + 1) := by
  obtain ⟨a, b, c, d⟩ := r
  rcases eq_or_ne a 0 with rfl | ha0 <;> rcases eq_or_ne b 0 with rfl | hb0 <;>
    rcases eq_or_ne c 0 with rfl | hc0 <;> rcases eq_or_ne d 0 with rfl | hd0 <;>
    simp_all [boundedRow, mlRow, compactRow, shiftWhileZero, anyFrom, getCell,
      shiftFrom] <;>
    (try simp only [mergeRow]) <;>
    (repeat (first | split_ifs | simp only [mergeAt])) <;>
    (try simp_all) <;> omega

/-- Reverse of a row (a row of `np.rot90(arr, k = 2)`). -/
def revRow (r : Row) : Row :=
  match r with
  | (a, b, c, d) => (d, c, b, a)

/-- Moving left transforms each row in place. -/
theorem om_left (g : Grid) :
    only_move g .left = (mlRow g.1, mlRow g.2.1, mlRow g.2.2.1, mlRow g.2.2.2) := rfl

/-- Moving right transforms each reversed row, reversed back. -/
theorem om_right (r0 r1 r2 r3 : Row) :
    only_move (r0, r1, r2, r3) .right =
      (revRow (mlRow (revRow r0)), revRow (mlRow (revRow r1)),
       revRow (mlRow (revRow r2)), revRow (mlRow (revRow r3))) := rfl

/-- Moving up transforms each column top-to-bottom, written back by columns. -/
theorem om_up (a0 b0 c0 d0 a1 b1 c1 d1 a2 b2 c2 d2 a3 b3 c3 d3 : Nat) :
    only_move ((a0,b0,c0,d0),(a1,b1,c1,d1),(a2,b2,c2,d2),(a3,b3,c3,d3)) .up =
      (((mlRow (a0,a1,a2,a3)).1, (mlRow (b0,b1,b2,b3)).1,
        (mlRow (c0,c1,c2,c3)).1, (mlRow (d0,d1,d2,d3)).1),
       ((mlRow (a0,a1,a2,a3)).2.1, (mlRow (b0,b1,b2,b3)).2.1,
        (mlRow (c0,c1,c2,c3)).2.1, (mlRow (d0,d1,d2,d3)).2.1),
       ((mlRow (a0,a1,a2,a3)).2.2.1, (mlRow (b0,b1,b2,b3)).2.2.1,
        (mlRow (c0,c1,c2,c3)).2.2.1, (mlRow (d0,d1,d2,d3)).2.2.1),
       ((mlRow (a0,a1,a2,a3)).2.2.2, (mlRow (b0,b1,b2,b3)).2.2.2,
        (mlRow (c0,c1,c2,c3)).2.2.2, (mlRow (d0,d1,d2,d3)).2.2.2)) := rfl

/-- Moving down transforms each column bottom-to-top, written back by columns. -/
theorem om_down (a0 b0 c0 d0 a1 b1 c1 d1 a2 b2 c2 d2 a3 b3 c3 d3 : Nat) :
    only_move ((a0,b0,c0,d0),(a1,b1,c1,d1),(a2,b2,c2,d2),(a3,b3,c3,d3)) .down =
      (((mlRow (a3,a2,a1,a0)).2.2.2, (mlRow (b3,b2,b1,b0)).2.2.2,
        (mlRow (c3,c2,c1,c0)).2.2.2, (mlRow (d3,d2,d1,d0)).2.2.2),
       ((mlRow (a3,a2,a1,a0)).2.2.1, (mlRow (b3,b2,b1,b0)).2.2.1,
        (mlRow (c3,c2,c1,c0)).2.2.1, (mlRow (d3,d2,d1,d0)).2.2.1),
       ((mlRow (a3,a2,a1,a0)).2.1, (mlRow (b3,b2,b1,b0)).2.1,
        (mlRow (c3,c2,c1,c0)).2.1, (mlRow (d3,d2,d1,d0)).2.1),
       ((mlRow (a3,a2,a1,a0)).1, (mlRow (b3,b2,b1,b0)).1,
        (mlRow (c3,c2,c1,c0)).1, (mlRow (d3,d2,d1,d0)).1)) := rfl

/-- All cells of the grid are ≤ m. -/
def boundedGrid (g : Grid) (m : Nat) : Prop :=
  boundedRow g.1 m ∧ boundedRow g.2.1 m ∧ boundedRow g.2.2.1 m ∧ boundedRow g.2.2.2 m

instance (r : Row) (m : Nat) : Decidable (boundedRow r m) := by
  unfold boundedRow; infer_instance

instance (g : Grid) (m : Nat) : Decidable (boundedGrid g m) := by
  unfold boundedGrid; infer_instance

/-- Any move raises the cell bound by at most one. -/
theorem only_move_bounded (g : Grid) (m : Nat) (h : boundedGrid g m) (d : Direction) :
    boundedGrid (only_move g d) (m + 1) := by
  obtain ⟨⟨a0,b0,c0,d0⟩,⟨a1,b1,c1,d1⟩,⟨a2,b2,c2,d2⟩,⟨a3,b3,c3,d3⟩⟩ := g
  simp only [boundedGrid, boundedRow] at h
  obtain ⟨⟨h1,h2,h3,h4⟩,⟨h5,h6,h7,h8⟩,⟨h9,h10,h11,h12⟩,⟨h13,h14,h15,h16⟩⟩ := h
  have B : ∀ w x y z : Nat, w ≤ m → x ≤ m → y ≤ m → z ≤ m →
      boundedRow (mlRow (w, x, y, z)) (m + 1) := by
    intro w x y z hw hx hy hz
    exact mlRow_bound (w, x, y, z) m ⟨hw, hx, hy, hz⟩
  cases d
  case left =>
    exact ⟨B a0 b0 c0 d0 h1 h2 h3 h4, B a1 b1 c1 d1 h5 h6 h7 h8,
           B a2 b2 c2 d2 h9 h10 h11 h12, B a3 b3 c3 d3 h13 h14 h15 h16⟩
  case right =>
    have R0 := B d0 c0 b0 a0 h4 h3 h2 h1
    have R1 := B d1 c1 b1 a1 h8 h7 h6 h5
    have R2 := B d2 c2 b2 a2 h12 h11 h10 h9
    have R3 := B d3 c3 b3 a3 h16 h15 h14 h13
    exact ⟨⟨R0.2.2.2, R0.2.2.1, R0.2.1, R0.1⟩, ⟨R1.2.2.2, R1.2.2.1, R1.2.1, R1.1⟩,
           ⟨R2.2.2.2, R2.2.2.1, R2.2.1, R2.1⟩, ⟨R3.2.2.2, R3.2.2.1, R3.2.1, R3.1⟩⟩
  case up =>
    have U0 := B a0 a1 a2 a3 h1 h5 h9 h13
    have U1 := B b0 b1 b2 b3 h2 h6 h10 h14
    have U2 := B c0 c1 c2 c3 h3 h7 h11 h15
    have U3 := B d0 d1 d2 d3 h4 h8 h12 h16
    exact ⟨⟨U0.1, U1.1, U2.1, U3.1⟩, ⟨U0.2.1, U1.2.1, U2.2.1, U3.2.1⟩,
           ⟨U0.2.2.1, U1.2.2.1, U2.2.2.1, U3.2.2.1⟩,
           ⟨U0.2.2.2, U1.2.2.2, U2.2.2.2, U3.2.2.2⟩⟩
  case down =>
    have D0 := B a3 a2 a1 a0 h13 h9 h5 h1
    have D1 := B b3 b2 b1 b0 h14 h10 h6 h2
    have D2 := B c3 c2 c1 c0 h15 h11 h7 h3
    have D3 := B d3 d2 d1 d0 h16 h12 h8 h4
    exact ⟨⟨D0.2.2.2, D1.2.2.2, D2.2.2.2, D3.2.2.2⟩,
           ⟨D0.2.2.1, D1.2.2.1, D2.2.2.1, D3.2.2.1⟩,
           ⟨D0.2.1, D1.2.1, D2.2.1, D3.2.1⟩, ⟨D0.1, D1.1, D2.1, D3.1⟩⟩

/-- A board on which the hand-coded legality test of `can_move_to` disagrees
with apply-and-compare: displayed row `[2, 2, 4, 0]`, i.e. exponents
`(1, 1, 2, 0)`, and three empty rows. -/
def bugGrid : Grid := ((1,1,2,0),(0,0,0,0),(0,0,0,0),(0,0,0,0))

/-- C1: `can_move_to` answers `false` for Left on `bugGrid`, yet moving Left
changes the board (the leading pair merges).  With `d = 0` and `c ≠ 0` the
check only tests `c == b` and zeros left of `c`; it never tests `b == a`. -/
theorem can_move_to_misses_merge :
    can_move_to bugGrid .left = false ∧ only_move bugGrid .left ≠ bugGrid ∧
      only_move bugGrid .left = ((2,2,0,0),(0,0,0,0),(0,0,0,0),(0,0,0,0)) :=
  ⟨by decide, by decide, by decide⟩

/-- C3 (amended): the row transform's output has no interior gaps — the
non-zero values form a prefix followed only by zeros. -/
theorem row_transform_no_gaps : ∀ r : Row, noGaps (mlRow r) :=
  mlRow_noGaps

/-- C3 counterexample: the transform of exponents `[1,1,2,3]` (displayed
`[2,2,4,8]`) is `[2,2,3,0]` (displayed `[4,4,8,0]`), which contains the equal
adjacent non-zero pair `4, 4`. -/
theorem row_transform_adjacent_equal_pair :
    mlRow (1,1,2,3) = (2,2,3,0) ∧ ¬ noAdjEq (mlRow (1,1,2,3)) :=
  ⟨by decide, by decide⟩

/-- C4 (amended): applying the row transform twice equals applying it once
exactly when the single application leaves no two equal adjacent non-zero
values. -/
theorem row_transform_idempotent_iff :
    ∀ r : Row, mlRow (mlRow r) = mlRow r ↔ noAdjEq (mlRow r) := by
  intro r
  constructor
  · intro h
    by_contra hn
    exact mlRow_moves (mlRow r) (mlRow_noGaps r) hn h
  · intro h
    exact mlRow_fixed (mlRow r) (mlRow_noGaps r) h

/-- C4 counterexample: `[1,1,1,1]` transforms to `[2,2,0,0]`, which a second
application changes to `[3,0,0,0]` — the transform is not idempotent. -/
theorem row_transform_not_idempotent :
    mlRow (1,1,1,1) = (2,2,0,0) ∧ mlRow (mlRow (1,1,1,1)) = (3,0,0,0) ∧
      mlRow (mlRow (1,1,1,1)) ≠ mlRow (1,1,1,1) :=
  ⟨by decide, by decide, by decide⟩

/-- The board of concrete scenario 3: displayed values
`[[0,0,0,0],[2,2,4,8],[0,0,2,2],[2,2,2,2]]`, as exponents. -/
def scenario3Grid : Grid := ((0,0,0,0),(1,1,2,3),(0,0,1,1),(1,1,1,1))

/-- C7: moving `scenario3Grid` Down yields displayed
`[[0,0,0,0],[0,0,0,0],[0,0,4,8],[4,4,4,4]]`, i.e. these exponents. -/
theorem move_down_scenario3 :
    only_move scenario3Grid .down = ((0,0,0,0),(0,0,0,0),(0,0,2,3),(2,2,2,2)) := by
  decide

/-- C8 (amended): a move on a board whose cells are all ≤ 14 yields cells all
≤ 15; the bound [0,15] itself is not preserved (see the counterexample). -/
theorem only_move_preserves_nibble_range :
    ∀ g : Grid, ∀ d : Direction, boundedGrid g 14 → boundedGrid (only_move g d) 15 :=
  fun g d h => only_move_bounded g 14 h d

/-- C8 witness: the amended invariant at a concrete board. -/
theorem only_move_preserves_nibble_range_witness :
    boundedGrid scenario3Grid 14 ∧ boundedGrid (only_move scenario3Grid .down) 15 :=
  ⟨by decide, only_move_preserves_nibble_range scenario3Grid .down (by decide)⟩

/-- A board (two mergeable pairs of exponent 15, the displayed 32768 cap)
whose Left move overflows the nibble range. -/
def overflowGrid : Grid := ((15,15,0,0),(15,15,0,0),(0,0,0,0),(0,0,0,0))

/-- C8 counterexample: all cells of `overflowGrid` are in [0,15], but moving
Left merges two 15s into a 16, leaving the nibble range. -/
theorem merge_exceeds_nibble_range :
    boundedGrid overflowGrid 15 ∧ ¬ boundedGrid (only_move overflowGrid .left) 15 ∧
      cellAt (only_move overflowGrid .left) (0, 0) = 16 :=
  ⟨by decide, by decide, by decide⟩
theorem build_value_expand (c0 c1 c2 c3 c4 c5 c6 c7 c8 c9 c10 c11 c12 c13 c14 c15 : Nat) :
    build_value ((c0, c1, c2, c3), (c4, c5, c6, c7), (c8, c9, c10, c11), (c12, c13, c14, c15)) =
      (packStep (packStep (packStep (packStep (packStep (packStep (packStep (packStep
        (packStep (packStep (packStep (packStep (packStep (packStep (packStep 0
          c15) c14) c13) c12) c11) c10) c9) c8) c7) c6) c5) c4) c3) c2) c1) ||| c0 := rfl

/-- The first fold step from accumulator 0. -/
theorem packStep_zero (v : Nat) (hv : v < 16) : packStep 0 v = 16 * v := by
  unfold packStep
  rw [Nat.zero_or, Nat.shiftLeft_eq]
  rw [Nat.mod_eq_of_lt (by omega)]
  ring

/-- A fold step on a 16-multiple accumulator, in range. -/
theorem packStep_sixteen (s v : Nat) (hv : v < 16) (hb : 16 * s + v < 2 ^ 60) :
    packStep (16 * s) v = 16 * (16 * s + v) := by
  unfold packStep
  have h1 : 16 * s ||| v = 16 * s + v := by
    have h2 := Nat.mul_add_lt_is_or (i := 4) (b := v) (by norm_num; omega) s
    norm_num at h2
    omega
  rw [h1, Nat.shiftLeft_eq]
  rw [Nat.mod_eq_of_lt (by norm_num; omega)]
  ring

/-- Or-ing a nibble into a 16-multiple is addition. -/
theorem or_sixteen (s v : Nat) (hv : v < 16) : 16 * s ||| v = 16 * s + v := by
  have h2 := Nat.mul_add_lt_is_or (i := 4) (b := v) (by norm_num; omega) s
  norm_num at h2
  omega

set_option maxHeartbeats 1000000 in
/-- Evaluating `build_value` on a grid of nibbles gives its base-16 value, nested form. -/
theorem build_value_sum (c0 c1 c2 c3 c4 c5 c6 c7 c8 c9 c10 c11 c12 c13 c14 c15 : Nat)
    (h0 : c0 < 16) (h1 : c1 < 16) (h2 : c2 < 16) (h3 : c3 < 16)
    (h4 : c4 < 16) (h5 : c5 < 16) (h6 : c6 < 16) (h7 : c7 < 16)
    (h8 : c8 < 16) (h9 : c9 < 16) (h10 : c10 < 16) (h11 : c11 < 16)
    (h12 : c12 < 16) (h13 : c13 < 16) (h14 : c14 < 16) (h15 : c15 < 16) :
    build_value ((c0, c1, c2, c3), (c4, c5, c6, c7), (c8, c9, c10, c11), (c12, c13, c14, c15)) =
      c0 + 16 * (c1 + 16 * (c2 + 16 * (c3 + 16 * (c4 + 16 * (c5 + 16 * (c6 + 16 * (c7 +
        16 * (c8 + 16 * (c9 + 16 * (c10 + 16 * (c11 + 16 * (c12 + 16 * (c13 + 16 *
          (c14 + 16 * c15)))))))))))))) := by
  rw [build_value_expand, packStep_zero _ h15,
    packStep_sixteen _ _ h14 (by omega), packStep_sixteen _ _ h13 (by omega),
    packStep_sixteen _ _ h12 (by omega), packStep_sixteen _ _ h11 (by omega),
    packStep_sixteen _ _ h10 (by omega), packStep_sixteen _ _ h9 (by omega),
    packStep_sixteen _ _ h8 (by omega), packStep_sixteen _ _ h7 (by omega),
    packStep_sixteen _ _ h6 (by omega), packStep_sixteen _ _ h5 (by omega),
    packStep_sixteen _ _ h4 (by omega), packStep_sixteen _ _ h3 (by omega),
    packStep_sixteen _ _ h2 (by omega), packStep_sixteen _ _ h1 (by omega),
    or_sixteen _ _ h0]
  ring

theorem and_fifteen (x : Nat) : x &&& 15 = x % 16 := by
  have h := Nat.and_pow_two_sub_one_eq_mod x 4
  norm_num at h
  exact h

set_option maxHeartbeats 1000000 in
/-- Key-side round trip. -/
theorem build_value_build_array (k : Nat) (hk : k < 2 ^ 64) :
    build_value (build_array k) = k := by
  show build_value
      ((k &&& 0xf, k >>> 4 &&& 0xf, k >>> 8 &&& 0xf, k >>> 12 &&& 0xf),
       (k >>> 16 &&& 0xf, k >>> 20 &&& 0xf, k >>> 24 &&& 0xf, k >>> 28 &&& 0xf),
       (k >>> 32 &&& 0xf, k >>> 36 &&& 0xf, k >>> 40 &&& 0xf, k >>> 44 &&& 0xf),
       (k >>> 48 &&& 0xf, k >>> 52 &&& 0xf, k >>> 56 &&& 0xf, k >>> 60 &&& 0xf)) = k
  simp only [Nat.shiftRight_eq_div_pow, and_fifteen]
  rw [build_value_sum] <;> omega

set_option maxHeartbeats 1000000 in
/-- Grid-side round trip. -/
theorem build_array_build_value (c0 c1 c2 c3 c4 c5 c6 c7 c8 c9 c10 c11 c12 c13 c14 c15 : Nat)
    (h0 : c0 < 16) (h1 : c1 < 16) (h2 : c2 < 16) (h3 : c3 < 16)
    (h4 : c4 < 16) (h5 : c5 < 16) (h6 : c6 < 16) (h7 : c7 < 16)
    (h8 : c8 < 16) (h9 : c9 < 16) (h10 : c10 < 16) (h11 : c11 < 16)
    (h12 : c12 < 16) (h13 : c13 < 16) (h14 : c14 < 16) (h15 : c15 < 16) :
    build_array (build_value
        ((c0, c1, c2, c3), (c4, c5, c6, c7), (c8, c9, c10, c11), (c12, c13, c14, c15))) =
      ((c0, c1, c2, c3), (c4, c5, c6, c7), (c8, c9, c10, c11), (c12, c13, c14, c15)) := by
  rw [build_value_sum] <;> try assumption
  unfold build_array
  simp only [Nat.shiftRight_eq_div_pow, and_fifteen, Prod.mk.injEq]
  norm_num
  omega

/-- Grid-side round trip, on whole grids. -/
theorem build_array_build_value_grid (g : Grid) (hb : boundedGrid g 15) :
    build_array (build_value g) = g := by
  obtain ⟨⟨c0, c1, c2, c3⟩, ⟨c4, c5, c6, c7⟩, ⟨c8, c9, c10, c11⟩, ⟨c12, c13, c14, c15⟩⟩ := g
  simp only [boundedGrid, boundedRow] at hb
  obtain ⟨⟨h0, h1, h2, h3⟩, ⟨h4, h5, h6, h7⟩, ⟨h8, h9, h10, h11⟩, ⟨h12, h13, h14, h15⟩⟩ := hb
  exact build_array_build_value c0 c1 c2 c3 c4 c5 c6 c7 c8 c9 c10 c11 c12 c13 c14 c15
    (by omega) (by omega) (by omega) (by omega) (by omega) (by omega) (by omega) (by omega)
    (by omega) (by omega) (by omega) (by omega) (by omega) (by omega) (by omega) (by omega)

/-- C2: the board codec is a bijection — decoding after encoding restores any
grid of nibbles, and encoding after decoding restores any 64-bit key. -/
theorem codec_round_trip :
    (∀ g : Grid, boundedGrid g 15 → build_array (build_value g) = g) ∧
      (∀ k : Nat, k < 2 ^ 64 → build_value (build_array k) = k) :=
  ⟨fun g hb => build_array_build_value_grid g hb, fun k hk => build_value_build_array k hk⟩

/-- C2 witness: the round trip at a concrete grid and a concrete key. -/
theorem codec_round_trip_witness :
    (boundedGrid scenario3Grid 15 ∧ build_array (build_value scenario3Grid) = scenario3Grid) ∧
      0x12345678 < 2 ^ 64 ∧ build_value (build_array 0x12345678) = 0x12345678 :=
  ⟨⟨by decide, codec_round_trip.1 scenario3Grid (by decide)⟩,
   ⟨by norm_num, codec_round_trip.2 0x12345678 (by norm_num)⟩⟩


/-- Membership in `holes`. -/
theorem mem_holes (g : Grid) (p : Nat × Nat) :
    p ∈ holes g ↔ p ∈ POSITIONS ∧ cellAt g p = 0 := by
  simp [holes, List.mem_filter]

/-- Membership in `POSITIONS`, explicitly. -/
theorem mem_POSITIONS (p : Nat × Nat) :
    p ∈ POSITIONS ↔ p = (0,0) ∨ p = (0,1) ∨ p = (0,2) ∨ p = (0,3) ∨
      p = (1,0) ∨ p = (1,1) ∨ p = (1,2) ∨ p = (1,3) ∨
      p = (2,0) ∨ p = (2,1) ∨ p = (2,2) ∨ p = (2,3) ∨
      p = (3,0) ∨ p = (3,1) ∨ p = (3,2) ∨ p = (3,3) := by
  simp [POSITIONS]

/-- Reading back the written cell. -/
theorem cellAt_place_self (g : Grid) (p : Nat × Nat) (v : Nat) (hp : p ∈ POSITIONS) :
    cellAt (place g p v) p = v := by
  obtain ⟨⟨a0,b0,c0,d0⟩,⟨a1,b1,c1,d1⟩,⟨a2,b2,c2,d2⟩,⟨a3,b3,c3,d3⟩⟩ := g
  rw [mem_POSITIONS] at hp
  rcases hp with rfl|rfl|rfl|rfl|rfl|rfl|rfl|rfl|rfl|rfl|rfl|rfl|rfl|rfl|rfl|rfl <;> rfl

/-- Reading an untouched cell. -/
theorem cellAt_place_ne (g : Grid) (p q : Nat × Nat) (v : Nat)
    (hp : p ∈ POSITIONS) (hq : q ∈ POSITIONS) (hne : p ≠ q) :
    cellAt (place g p v) q = cellAt g q := by
  obtain ⟨⟨a0,b0,c0,d0⟩,⟨a1,b1,c1,d1⟩,⟨a2,b2,c2,d2⟩,⟨a3,b3,c3,d3⟩⟩ := g
  rw [mem_POSITIONS] at hp hq
  rcases hp with rfl|rfl|rfl|rfl|rfl|rfl|rfl|rfl|rfl|rfl|rfl|rfl|rfl|rfl|rfl|rfl <;>
    rcases hq with rfl|rfl|rfl|rfl|rfl|rfl|rfl|rfl|rfl|rfl|rfl|rfl|rfl|rfl|rfl|rfl <;>
    first
      | exact absurd rfl hne
      | rfl

/-- Writing a small value keeps the grid bounded. -/
theorem place_bounded (g : Grid) (p : Nat × Nat) (v m : Nat)
    (hb : boundedGrid g m) (hv : v ≤ m) (hp : p ∈ POSITIONS) :
    boundedGrid (place g p v) m := by
  obtain ⟨⟨a0,b0,c0,d0⟩,⟨a1,b1,c1,d1⟩,⟨a2,b2,c2,d2⟩,⟨a3,b3,c3,d3⟩⟩ := g
  rw [mem_POSITIONS] at hp
  simp only [boundedGrid, boundedRow] at hb ⊢
  rcases hp with rfl|rfl|rfl|rfl|rfl|rfl|rfl|rfl|rfl|rfl|rfl|rfl|rfl|rfl|rfl|rfl <;>
    simp only [place, setRow, setCell, getRow] <;>
    exact ⟨⟨by omega, by omega, by omega, by omega⟩, ⟨by omega, by omega, by omega, by omega⟩,
      ⟨by omega, by omega, by omega, by omega⟩, ⟨by omega, by omega, by omega, by omega⟩⟩

/-- A looser bound still bounds. -/
theorem boundedGrid_mono (g : Grid) (m n : Nat) (h : boundedGrid g m) (hmn : m ≤ n) :
    boundedGrid g n := by
  simp only [boundedGrid, boundedRow] at h ⊢
  omega

theorem testBit_ge_five {x : Nat} (h : x < 32) {k : Nat} (hk : 5 ≤ k) :
    x.testBit k = false := by
  apply Nat.testBit_lt_two_pow
  have h32 : (32 : Nat) = 2 ^ 5 := by norm_num
  have hpow : (2 : Nat) ^ 5 ≤ 2 ^ k := Nat.pow_le_pow_right (by norm_num) hk
  omega

set_option maxHeartbeats 2000000 in
/-- Bit `4·(flat index) + 1` of a packed board is bit 1 of the cell there, as
long as every cell fits in 5 bits (so each cell only touches bits
`4i … 4i+4`, and bit `4i+1` can come from no other cell). -/
theorem build_value_testBit_one (g : Grid) (hb : boundedGrid g 31)
    (t : Nat × Nat) (ht : t ∈ POSITIONS) :
    (build_value g).testBit (4 * (4 * t.1 + t.2) + 1) = (cellAt g t).testBit 1 := by
  obtain ⟨⟨c0,c1,c2,c3⟩,⟨c4,c5,c6,c7⟩,⟨c8,c9,c10,c11⟩,⟨c12,c13,c14,c15⟩⟩ := g
  simp only [boundedGrid, boundedRow] at hb
  obtain ⟨⟨h0,h1,h2,h3⟩,⟨h4,h5,h6,h7⟩,⟨h8,h9,h10,h11⟩,⟨h12,h13,h14,h15⟩⟩ := hb
  have t0 : ∀ k, 5 ≤ k → c0.testBit k = false := fun k hk => testBit_ge_five (by omega) hk
  have t1 : ∀ k, 5 ≤ k → c1.testBit k = false := fun k hk => testBit_ge_five (by omega) hk
  have t2 : ∀ k, 5 ≤ k → c2.testBit k = false := fun k hk => testBit_ge_five (by omega) hk
  have t3 : ∀ k, 5 ≤ k → c3.testBit k = false := fun k hk => testBit_ge_five (by omega) hk
  have t4 : ∀ k, 5 ≤ k → c4.testBit k = false := fun k hk => testBit_ge_five (by omega) hk
  have t5 : ∀ k, 5 ≤ k → c5.testBit k = false := fun k hk => testBit_ge_five (by omega) hk
  have t6 : ∀ k, 5 ≤ k → c6.testBit k = false := fun k hk => testBit_ge_five (by omega) hk
  have t7 : ∀ k, 5 ≤ k → c7.testBit k = false := fun k hk => testBit_ge_five (by omega) hk
  have t8 : ∀ k, 5 ≤ k → c8.testBit k = false := fun k hk => testBit_ge_five (by omega) hk
  have t9 : ∀ k, 5 ≤ k → c9.testBit k = false := fun k hk => testBit_ge_five (by omega) hk
  have t10 : ∀ k, 5 ≤ k → c10.testBit k = false := fun k hk => testBit_ge_five (by omega) hk
  have t11 : ∀ k, 5 ≤ k → c11.testBit k = false := fun k hk => testBit_ge_five (by omega) hk
  have t12 : ∀ k, 5 ≤ k → c12.testBit k = false := fun k hk => testBit_ge_five (by omega) hk
  have t13 : ∀ k, 5 ≤ k → c13.testBit k = false := fun k hk => testBit_ge_five (by omega) hk
  have t14 : ∀ k, 5 ≤ k → c14.testBit k = false := fun k hk => testBit_ge_five (by omega) hk
  have t15 : ∀ k, 5 ≤ k → c15.testBit k = false := fun k hk => testBit_ge_five (by omega) hk
  rw [mem_POSITIONS] at ht
  rcases ht with rfl|rfl|rfl|rfl|rfl|rfl|rfl|rfl|rfl|rfl|rfl|rfl|rfl|rfl|rfl|rfl <;>
    rw [build_value_expand] <;>
    simp only [packStep, Nat.testBit_lor, Nat.testBit_mod_two_pow, Nat.testBit_shiftLeft] <;>
    norm_num [cellAt, getRow, getCell,
      t0, t1, t2, t3, t4, t5, t6, t7, t8, t9, t10, t11, t12, t13, t14, t15]

/-- Spawning a 2-tile and spawning a 1-tile in holes of the same moved board
always give different packed keys, even when merged cells hold 16: a 2 at
hole `q` sets bit `4·(flat q) + 1`, which no other cell ≤ 16 can set. -/
theorem cross_type_keys_ne (M : Grid) (hb : boundedGrid M 16)
    (p q : Nat × Nat) (hp : p ∈ holes M) (hq : q ∈ holes M) :
    build_value (place M p 1) ≠ build_value (place M q 2) := by
  rw [mem_holes] at hp hq
  intro heq
  have hbp : boundedGrid (place M p 1) 31 :=
    place_bounded M p 1 31 (boundedGrid_mono M 16 31 hb (by omega)) (by omega) hp.1
  have hbq : boundedGrid (place M q 2) 31 :=
    place_bounded M q 2 31 (boundedGrid_mono M 16 31 hb (by omega)) (by omega) hq.1
  have hA := build_value_testBit_one (place M p 1) hbp q hq.1
  have hB := build_value_testBit_one (place M q 2) hbq q hq.1
  rw [heq, hB] at hA
  rw [cellAt_place_self M q 2 hq.1] at hA
  by_cases hpq : p = q
  · subst hpq
    rw [cellAt_place_self M p 1 hp.1] at hA
    simp [Nat.testBit] at hA
  · rw [cellAt_place_ne M p q 1 hp.1 hq.1 hpq, hq.2] at hA
    simp [Nat.testBit] at hA

/-- Packing `build_value` is injective on nibble-valid grids. -/
theorem build_value_inj (g g' : Grid) (hg : boundedGrid g 15) (hg' : boundedGrid g' 15)
    (h : build_value g = build_value g') : g = g' := by
  have r1 := build_array_build_value_grid g hg
  have r2 := build_array_build_value_grid g' hg'
  rw [← r1, ← r2, h]

/-- Updating entries of other keys does not change a lookup. -/
theorem dlookup_map_update_ne (k key : Nat) (v : ℚ) (m : ChanceDict) (hne : key ≠ k) :
    dlookup (m.map (fun kv => if kv.1 = k then (k, v) else kv)) key = dlookup m key := by
  induction m with
  | nil => rfl
  | cons hd tl ih =>
    simp only [List.map_cons]
    by_cases h1 : hd.1 = k
    · rw [if_pos h1, dlookup, dlookup, if_neg (by omega), if_neg (by omega), ih]
    · rw [if_neg h1, dlookup, dlookup, ih]

/-- Updating the looked-up key yields the new value, when the key occurs. -/
theorem dlookup_map_update_eq (k : Nat) (v : ℚ) (m : ChanceDict)
    (h : ∃ kv ∈ m, kv.1 = k) :
    dlookup (m.map (fun kv => if kv.1 = k then (k, v) else kv)) k = some v := by
  induction m with
  | nil => simp at h
  | cons hd tl ih =>
    simp only [List.map_cons]
    by_cases h1 : hd.1 = k
    · rw [if_pos h1, dlookup, if_pos rfl]
    · rw [if_neg h1, dlookup, if_neg h1]
      apply ih
      rcases h with ⟨kv, hkv, hk⟩
      rcases List.mem_cons.1 hkv with rfl | hmem
      · exact absurd hk h1
      · exact ⟨kv, hmem, hk⟩

/-- Appending a fresh entry only affects its own key. -/
theorem dlookup_append_single (m : ChanceDict) (k key : Nat) (v : ℚ) :
    dlookup (m ++ [(k, v)]) key =
      match dlookup m key with
      | some w => some w
      | none => if k = key then some v else none := by
  induction m with
  | nil => rfl
  | cons hd tl ih =>
    by_cases h1 : hd.1 = key
    · rw [List.cons_append, dlookup, if_pos h1, dlookup, if_pos h1]
    · rw [List.cons_append, dlookup, if_neg h1, dlookup, if_neg h1, ih]

/-- A key absent from the dict looks up to `none`. -/
theorem dlookup_eq_none (m : ChanceDict) (key : Nat) (h : ∀ kv ∈ m, kv.1 ≠ key) :
    dlookup m key = none := by
  induction m with
  | nil => rfl
  | cons hd tl ih =>
    rw [dlookup, if_neg (h hd (List.mem_cons_self hd tl))]
    exact ih (fun kv hkv => h kv (List.mem_cons_of_mem hd hkv))

/-- The fundamental `dictInsert` lookup law. -/
theorem dlookup_dictInsert (m : ChanceDict) (k key : Nat) (v : ℚ) :
    dlookup (dictInsert m k v) key = if key = k then some v else dlookup m key := by
  by_cases hany : m.any (fun kv => kv.1 = k) = true
  · rw [dictInsert, if_pos hany]
    by_cases hk : key = k
    · subst hk
      rw [if_pos rfl]
      apply dlookup_map_update_eq
      simpa [List.any_eq_true] using hany
    · rw [if_neg hk, dlookup_map_update_ne k key v m hk]
  · rw [dictInsert, if_neg hany, dlookup_append_single]
    have hnone : ∀ kv ∈ m, kv.1 ≠ k := by
      intro kv hkv
      intro hc
      exact hany (List.any_eq_true.2 ⟨kv, hkv, by simp [hc]⟩)
    by_cases hk : key = k
    · subst hk
      rw [dlookup_eq_none m key hnone, if_pos rfl]
    · rw [if_neg hk]
      cases hdm : dlookup m key with
      | some w => rfl
      | none => rw [if_neg (by omega)]

/-- Folding fresh, pairwise distinct keys into a dict appends them in order. -/
theorem foldl_dictInsert_fresh (keyf : FillEntry → Nat) :
    ∀ (l : List FillEntry) (m : ChanceDict),
      (∀ e ∈ l, ∀ kv ∈ m, kv.1 ≠ keyf e) →
      (l.map keyf).Nodup →
      l.foldl (fun m e => dictInsert m (keyf e) e.2) m =
        m ++ l.map (fun e => (keyf e, e.2)) := by
  intro l
  induction l with
  | nil => intro m _ _; simp
  | cons e t ih =>
    intro m hfresh hnd
    have hany : (m.any fun kv => kv.1 = keyf e) = false := by
      rw [Bool.eq_false_iff]
      intro hc
      rcases List.any_eq_true.1 hc with ⟨kv, hkv, hp⟩
      exact hfresh e (List.mem_cons_self e t) kv hkv (by simpa using hp)
    rw [List.foldl_cons]
    rw [show dictInsert m (keyf e) e.2 = m ++ [(keyf e, e.2)] from by
      rw [dictInsert, if_neg (by simp [hany])]]
    rw [ih (m ++ [(keyf e, e.2)]) ?fresh ?nodup]
    · simp
    case fresh =>
      intro e' he' kv hkv
      rcases List.mem_append.1 hkv with hm | hs
      · exact hfresh e' (List.mem_cons_of_mem e he') kv hm
      · simp only [List.mem_singleton] at hs
        subst hs
        simp only [List.map_cons, List.nodup_cons] at hnd
        intro hc
        apply hnd.1
        rw [show keyf e = keyf e' from hc]
        exact List.mem_map_of_mem keyf he'
    case nodup =>
      simp only [List.map_cons, List.nodup_cons] at hnd
      exact hnd.2

/-- Lookup after the fold is the value of the last entry with that key. -/
theorem dlookup_foldl (keyf : FillEntry → Nat) :
    ∀ (l : List FillEntry) (m : ChanceDict) (key : Nat),
      dlookup (l.foldl (fun m e => dictInsert m (keyf e) e.2) m) key =
        match l.reverse.find? (fun e => keyf e == key) with
        | some e => some e.2
        | none => dlookup m key := by
  intro l
  induction l with
  | nil => intro m key; simp
  | cons e t ih =>
    intro m key
    rw [List.foldl_cons, ih, List.reverse_cons, List.find?_append]
    cases hf : t.reverse.find? (fun e => keyf e == key) with
    | some e' => simp [hf]
    | none =>
      simp only [hf, Option.none_or]
      rw [dlookup_dictInsert]
      by_cases hk : keyf e = key
      · simp [List.find?, hk]
      · have : (keyf e == key) = false := by simp [hk]
        simp [List.find?, this, if_neg (by omega : ¬ key = keyf e)]

/-- The fill list is empty exactly when there are no holes. -/
theorem potential_fills_aux_eq_nil (k : Nat) (l : List (Nat × Nat)) :
    potential_fills_aux k l = [] ↔ l = [] := by
  cases l with
  | nil => simp [potential_fills_aux]
  | cons p t => simp [potential_fills_aux]

/-- Two fill entries per hole. -/
theorem potential_fills_aux_length (k : Nat) (l : List (Nat × Nat)) :
    (potential_fills_aux k l).length = 2 * l.length := by
  induction l with
  | nil => rfl
  | cons p t ih => simp [potential_fills_aux, ih]; omega

/-- Shape of the fill entries. -/
theorem mem_potential_fills_aux (k : Nat) (l : List (Nat × Nat)) (e : FillEntry) :
    e ∈ potential_fills_aux k l ↔
      ∃ p ∈ l, e = ((p, 1), 1 / (k : ℚ) * (9 / 10)) ∨ e = ((p, 2), 1 / (k : ℚ) * (1 / 10)) := by
  induction l with
  | nil => simp [potential_fills_aux]
  | cons q t ih =>
    simp only [potential_fills_aux, List.mem_cons, ih, List.mem_cons]
    constructor
    · rintro (rfl | rfl | ⟨p, hp, h⟩)
      · exact ⟨q, Or.inl rfl, Or.inl rfl⟩
      · exact ⟨q, Or.inl rfl, Or.inr rfl⟩
      · exact ⟨p, Or.inr hp, h⟩
    · rintro ⟨p, (rfl | hp), (rfl | rfl)⟩
      · exact Or.inl rfl
      · exact Or.inr (Or.inl rfl)
      · exact Or.inr (Or.inr ⟨p, hp, Or.inl rfl⟩)
      · exact Or.inr (Or.inr ⟨p, hp, Or.inr rfl⟩)

/-- Placing distinct (hole, non-zero value) fills yields distinct grids. -/
theorem place_fills_ne (M : Grid) (p q : Nat × Nat) (v w : Nat)
    (hp : p ∈ holes M) (hq : q ∈ holes M) (hv : v ≠ 0) (hw : w ≠ 0)
    (hne : (p, v) ≠ (q, w)) : place M p v ≠ place M q w := by
  rw [mem_holes] at hp hq
  intro hEq
  by_cases hpq : p = q
  · subst hpq
    have hvw : v ≠ w := by
      intro hc
      exact hne (by rw [hc])
    have h1 : cellAt (place M p v) p = v := cellAt_place_self M p v hp.1
    have h2 : cellAt (place M p w) p = w := cellAt_place_self M p w hp.1
    rw [hEq, h2] at h1
    exact hvw h1.symm
  · have h1 : cellAt (place M p v) q = cellAt M q := cellAt_place_ne M p q v hp.1 hq.1 hpq
    have h2 : cellAt (place M q w) q = w := cellAt_place_self M q w hq.1
    rw [hEq, h2] at h1
    rw [hq.2] at h1
    exact hw h1

/-- The packed key of a fill entry of the moved board `M`. -/
def fillKey (M : Grid) (e : FillEntry) : Nat :=
  build_value (place M e.1.1 e.1.2)

/-- On a nibble-valid moved board, all fill keys are pairwise distinct. -/
theorem fills_keys_nodup_aux (M : Grid) (hbM : boundedGrid M 15) (k : Nat) :
    ∀ l : List (Nat × Nat), l.Nodup → (∀ p ∈ l, p ∈ holes M) →
      ((potential_fills_aux k l).map (fillKey M)).Nodup := by
  intro l
  induction l with
  | nil => intro _ _; simp [potential_fills_aux]
  | cons p t ih =>
    intro hnd hsub
    have hp : p ∈ holes M := hsub p (List.mem_cons_self p t)
    have hbp1 : boundedGrid (place M p 1) 15 :=
      place_bounded M p 1 15 hbM (by omega) ((mem_holes M p).1 hp).1
    have hbp2 : boundedGrid (place M p 2) 15 :=
      place_bounded M p 2 15 hbM (by omega) ((mem_holes M p).1 hp).1
    have hkey : ∀ q ∈ holes M, ∀ v w : Nat, v ≠ 0 → w ≠ 0 → v ≤ 15 → w ≤ 15 →
        (p, v) ≠ (q, w) → fillKey M ((p, v), 0) ≠ fillKey M ((q, w), 0) := by
      intro q hq v w hv hw hv15 hw15 hne hc
      exact place_fills_ne M p q v w hp hq hv hw hne
        (build_value_inj _ _
          (place_bounded M p v 15 hbM hv15 ((mem_holes M p).1 hp).1)
          (place_bounded M q w 15 hbM hw15 ((mem_holes M q).1 hq).1) hc)
    simp only [potential_fills_aux, List.map_cons, List.nodup_cons]
    simp only [List.nodup_cons] at hnd
    refine ⟨?_, ?_, ih hnd.2 (fun q hq => hsub q (List.mem_cons_of_mem p hq))⟩
    · simp only [List.mem_cons, List.mem_map]
      rintro (hc | ⟨e, he, hc⟩)
      · exact hkey p hp 1 2 (by omega) (by omega) (by omega) (by omega) (by simp) hc
      · rcases (mem_potential_fills_aux k t e).1 he with ⟨q, hq, rfl | rfl⟩
        · refine hkey q (hsub q (List.mem_cons_of_mem p hq)) 1 1
            (by omega) (by omega) (by omega) (by omega) ?_ hc.symm
          simp only [ne_eq, Prod.mk.injEq]
          intro hcc
          exact hnd.1 (hcc.1 ▸ hq)
        · refine hkey q (hsub q (List.mem_cons_of_mem p hq)) 1 2
            (by omega) (by omega) (by omega) (by omega) ?_ hc.symm
          simp only [ne_eq, Prod.mk.injEq]
          intro hcc
          exact hnd.1 (hcc.1 ▸ hq)
    · simp only [List.mem_map]
      rintro ⟨e, he, hc⟩
      rcases (mem_potential_fills_aux k t e).1 he with ⟨q, hq, rfl | rfl⟩
      · refine hkey q (hsub q (List.mem_cons_of_mem p hq)) 2 1
          (by omega) (by omega) (by omega) (by omega) ?_ hc.symm
        simp only [ne_eq, Prod.mk.injEq]
        intro hcc
        exact hnd.1 (hcc.1 ▸ hq)
      · refine hkey q (hsub q (List.mem_cons_of_mem p hq)) 2 2
          (by omega) (by omega) (by omega) (by omega) ?_ hc.symm
        simp only [ne_eq, Prod.mk.injEq]
        intro hcc
        exact hnd.1 (hcc.1 ▸ hq)

set_option maxHeartbeats 1000000 in
/-- A move that leaves no empty cell did not change the board: every change
either relocates an existing zero or frees a cell by merging. -/
theorem only_move_eq_of_no_holes (g : Grid) (d : Direction)
    (hnil : holes (only_move g d) = []) : only_move g d = g := by
  have hall : ∀ p ∈ POSITIONS, ¬ cellAt (only_move g d) p = 0 := by
    have := List.filter_eq_nil_iff.1 hnil
    intro p hp hc
    exact absurd (by simp [hc] : decide (cellAt (only_move g d) p = 0) = true) (this p hp)
  obtain ⟨⟨a0,b0,c0,d0⟩,⟨a1,b1,c1,d1⟩,⟨a2,b2,c2,d2⟩,⟨a3,b3,c3,d3⟩⟩ := g
  cases d
  case left =>
    have z := hall
    have E : ∀ w x y z' : Nat, ¬ (mlRow (w,x,y,z')).1 = 0 → ¬ (mlRow (w,x,y,z')).2.1 = 0 →
        ¬ (mlRow (w,x,y,z')).2.2.1 = 0 → ¬ (mlRow (w,x,y,z')).2.2.2 = 0 →
        mlRow (w,x,y,z') = (w,x,y,z') := by
      intro w x y z' h1 h2 h3 h4
      rcases mlRow_zero_or_eq (w,x,y,z') with hz | he
      · rcases hz with h | h | h | h
        · exact absurd h h1
        · exact absurd h h2
        · exact absurd h h3
        · exact absurd h h4
      · exact he
    rw [om_left]
    rw [E a0 b0 c0 d0 (z (0,0) (by decide)) (z (0,1) (by decide)) (z (0,2) (by decide))
          (z (0,3) (by decide)),
        E a1 b1 c1 d1 (z (1,0) (by decide)) (z (1,1) (by decide)) (z (1,2) (by decide))
          (z (1,3) (by decide)),
        E a2 b2 c2 d2 (z (2,0) (by decide)) (z (2,1) (by decide)) (z (2,2) (by decide))
          (z (2,3) (by decide)),
        E a3 b3 c3 d3 (z (3,0) (by decide)) (z (3,1) (by decide)) (z (3,2) (by decide))
          (z (3,3) (by decide))]
  case right =>
    have z := hall
    have E : ∀ w x y z' : Nat, ¬ (mlRow (w,x,y,z')).1 = 0 → ¬ (mlRow (w,x,y,z')).2.1 = 0 →
        ¬ (mlRow (w,x,y,z')).2.2.1 = 0 → ¬ (mlRow (w,x,y,z')).2.2.2 = 0 →
        mlRow (w,x,y,z') = (w,x,y,z') := by
      intro w x y z' h1 h2 h3 h4
      rcases mlRow_zero_or_eq (w,x,y,z') with hz | he
      · rcases hz with h | h | h | h
        · exact absurd h h1
        · exact absurd h h2
        · exact absurd h h3
        · exact absurd h h4
      · exact he
    rw [om_right]
    simp only [revRow]
    rw [E d0 c0 b0 a0 (z (0,3) (by decide)) (z (0,2) (by decide)) (z (0,1) (by decide))
          (z (0,0) (by decide)),
        E d1 c1 b1 a1 (z (1,3) (by decide)) (z (1,2) (by decide)) (z (1,1) (by decide))
          (z (1,0) (by decide)),
        E d2 c2 b2 a2 (z (2,3) (by decide)) (z (2,2) (by decide)) (z (2,1) (by decide))
          (z (2,0) (by decide)),
        E d3 c3 b3 a3 (z (3,3) (by decide)) (z (3,2) (by decide)) (z (3,1) (by decide))
          (z (3,0) (by decide))]
  case up =>
    have z := hall
    have E : ∀ w x y z' : Nat, ¬ (mlRow (w,x,y,z')).1 = 0 → ¬ (mlRow (w,x,y,z')).2.1 = 0 →
        ¬ (mlRow (w,x,y,z')).2.2.1 = 0 → ¬ (mlRow (w,x,y,z')).2.2.2 = 0 →
        mlRow (w,x,y,z') = (w,x,y,z') := by
      intro w x y z' h1 h2 h3 h4
      rcases mlRow_zero_or_eq (w,x,y,z') with hz | he
      · rcases hz with h | h | h | h
        · exact absurd h h1
        · exact absurd h h2
        · exact absurd h h3
        · exact absurd h h4
      · exact he
    rw [om_up]
    rw [E a0 a1 a2 a3 (z (0,0) (by decide)) (z (1,0) (by decide)) (z (2,0) (by decide))
          (z (3,0) (by decide)),
        E b0 b1 b2 b3 (z (0,1) (by decide)) (z (1,1) (by decide)) (z (2,1) (by decide))
          (z (3,1) (by decide)),
        E c0 c1 c2 c3 (z (0,2) (by decide)) (z (1,2) (by decide)) (z (2,2) (by decide))
          (z (3,2) (by decide)),
        E d0 d1 d2 d3 (z (0,3) (by decide)) (z (1,3) (by decide)) (z (2,3) (by decide))
          (z (3,3) (by decide))]
  case down =>
    have z := hall
    have E : ∀ w x y z' : Nat, ¬ (mlRow (w,x,y,z')).1 = 0 → ¬ (mlRow (w,x,y,z')).2.1 = 0 →
        ¬ (mlRow (w,x,y,z')).2.2.1 = 0 → ¬ (mlRow (w,x,y,z')).2.2.2 = 0 →
        mlRow (w,x,y,z') = (w,x,y,z') := by
      intro w x y z' h1 h2 h3 h4
      rcases mlRow_zero_or_eq (w,x,y,z') with hz | he
      · rcases hz with h | h | h | h
        · exact absurd h h1
        · exact absurd h h2
        · exact absurd h h3
        · exact absurd h h4
      · exact he
    rw [om_down]
    rw [E a3 a2 a1 a0 (z (3,0) (by decide)) (z (2,0) (by decide)) (z (1,0) (by decide))
          (z (0,0) (by decide)),
        E b3 b2 b1 b0 (z (3,1) (by decide)) (z (2,1) (by decide)) (z (1,1) (by decide))
          (z (0,1) (by decide)),
        E c3 c2 c1 c0 (z (3,2) (by decide)) (z (2,2) (by decide)) (z (1,2) (by decide))
          (z (0,2) (by decide)),
        E d3 d2 d1 d0 (z (3,3) (by decide)) (z (2,3) (by decide)) (z (1,3) (by decide))
          (z (0,3) (by decide))]

/-- Unfolding `potential_states_to` on a changing move. -/
theorem psTo_of_ne (g : Grid) (d : Direction) (h : only_move g d ≠ g) :
    potential_states_to g d =
      some ((potential_fills (only_move g d)).foldl
        (fun m e => dictInsert m (fillKey (only_move g d) e) e.2) []) := by
  rw [potential_states_to]
  simp only [if_neg h]
  rfl

/-- Absence: `potential_states_to` returns `none` exactly for non-moves. -/
theorem psTo_none_iff (g : Grid) (d : Direction) :
    potential_states_to g d = none ↔ only_move g d = g := by
  rw [potential_states_to]
  by_cases h : only_move g d = g
  · simp [h]
  · simp [h]

/-- Sum of the chances of the fill entries. -/
theorem potential_fills_aux_sum (k : Nat) (l : List (Nat × Nat)) :
    ((potential_fills_aux k l).map Prod.snd).sum = (l.length : ℚ) * (1 / (k : ℚ)) := by
  induction l with
  | nil => simp [potential_fills_aux]
  | cons p t ih =>
    simp only [potential_fills_aux, List.map_cons, List.sum_cons, ih, List.length_cons]
    push_cast
    ring

/-- The summed distribution of a nibble-valid moved board. -/
theorem sumVals_psTo (g : Grid) (d : Direction) (m : ChanceDict)
    (hb : boundedGrid (only_move g d) 15)
    (hm : potential_states_to g d = some m) : sumVals m = 1 := by
  have hne : only_move g d ≠ g := by
    intro hc
    rw [(psTo_none_iff g d).2 hc] at hm
    exact Option.noConfusion hm
  rw [psTo_of_ne g d hne] at hm
  have hnd : ((potential_fills (only_move g d)).map (fillKey (only_move g d))).Nodup := by
    rw [potential_fills]
    exact fills_keys_nodup_aux (only_move g d) hb (holes (only_move g d)).length
      (holes (only_move g d))
      (List.Nodup.filter _ (by decide))
      (fun p hp => hp)
  rw [foldl_dictInsert_fresh (fillKey (only_move g d)) (potential_fills (only_move g d)) []
      (by intro e _ kv hkv; exact absurd hkv (List.not_mem_nil kv)) hnd] at hm
  cases hm
  rw [sumVals, List.nil_append, List.map_map]
  have hsnd : (Prod.snd ∘ fun e : FillEntry => (fillKey (only_move g d) e, e.2)) =
      Prod.snd := rfl
  rw [hsnd, potential_fills, potential_fills_aux_sum]
  have hk : holes (only_move g d) ≠ [] := by
    intro hc
    exact hne (only_move_eq_of_no_holes g d hc)
  have hk0 : (holes (only_move g d)).length ≠ 0 := by
    intro hc
    exact hk (List.eq_nil_of_length_eq_zero hc)
  have hkq : ((holes (only_move g d)).length : ℚ) ≠ 0 := by
    exact_mod_cast hk0
  field_simp

/-- If every entry with the looked-up key carries value `v` and at least one
entry has that key, the folded dict looks up to `v` — collisions included. -/
theorem dlookup_foldl_value (keyf : FillEntry → Nat) (l : List FillEntry) (key : Nat) (v : ℚ)
    (hex : ∃ e ∈ l, keyf e = key) (hall : ∀ e ∈ l, keyf e = key → e.2 = v) :
    dlookup (l.foldl (fun m e => dictInsert m (keyf e) e.2) []) key = some v := by
  rw [dlookup_foldl]
  cases hf : l.reverse.find? (fun e => keyf e == key) with
  | some e' =>
    have h1 := List.find?_some hf
    have h2 := List.mem_of_find?_eq_some hf
    have h3 : e'.2 = v := hall e' (List.mem_reverse.1 h2) (by simpa using h1)
    simp [h3]
  | none =>
    exfalso
    rcases hex with ⟨e, he, hk⟩
    have := List.find?_eq_none.1 hf e (List.mem_reverse.2 he)
    simp [hk] at this

/-- C5: for every nibble-valid board and legal direction, the successor
distribution assigns probability 0.9/k to each board reached by spawning a 2
(exponent 1) in an empty cell of the moved board and 0.1/k to each board
reached by spawning a 4 (exponent 2), with k the number of empty cells. -/
theorem successor_probabilities :
    ∀ g : Grid, ∀ d : Direction, ∀ m : ChanceDict, boundedGrid g 15 →
      potential_states_to g d = some m →
      ∀ p ∈ holes (only_move g d),
        dlookup m (build_value (place (only_move g d) p 1)) =
          some (9 / 10 / ((holes (only_move g d)).length : ℚ)) ∧
        dlookup m (build_value (place (only_move g d) p 2)) =
          some (1 / 10 / ((holes (only_move g d)).length : ℚ)) := by
  intro g d m hbg hm p hp
  have hne : only_move g d ≠ g := by
    intro hc
    rw [(psTo_none_iff g d).2 hc] at hm
    exact Option.noConfusion hm
  have hbM : boundedGrid (only_move g d) 16 := only_move_bounded g 15 hbg d
  rw [psTo_of_ne g d hne] at hm
  have hm' := Option.some.inj hm
  subst hm'
  constructor
  · apply dlookup_foldl_value
    · refine ⟨((p, 1), 1 / ((holes (only_move g d)).length : ℚ) * (9 / 10)), ?_, rfl⟩
      rw [potential_fills, mem_potential_fills_aux]
      exact ⟨p, hp, Or.inl rfl⟩
    · intro e he hk
      rw [potential_fills, mem_potential_fills_aux] at he
      rcases he with ⟨q, hq, rfl | rfl⟩
      · show (1 : ℚ) / ((holes (only_move g d)).length : ℚ) * (9 / 10) = _
        ring
      · exact absurd hk.symm (cross_type_keys_ne (only_move g d) hbM p q hp hq)
  · apply dlookup_foldl_value
    · refine ⟨((p, 2), 1 / ((holes (only_move g d)).length : ℚ) * (1 / 10)), ?_, rfl⟩
      rw [potential_fills, mem_potential_fills_aux]
      exact ⟨p, hp, Or.inr rfl⟩
    · intro e he hk
      rw [potential_fills, mem_potential_fills_aux] at he
      rcases he with ⟨q, hq, rfl | rfl⟩
      · exact absurd hk (cross_type_keys_ne (only_move g d) hbM q p hq hp)
      · show (1 : ℚ) / ((holes (only_move g d)).length : ℚ) * (1 / 10) = _
        ring

/-- A simple board with a legal Left move: displayed `[2,2,0,0]` top row. -/
def simpleSpawnGrid : Grid := ((1,1,0,0),(0,0,0,0),(0,0,0,0),(0,0,0,0))

/-- For a changing move the distribution is `some` of its own `getD`. -/
theorem psTo_some_getD (g : Grid) (d : Direction) (h : only_move g d ≠ g) :
    potential_states_to g d = some ((potential_states_to g d).getD []) := by
  rw [psTo_of_ne g d h]
  rfl

/-- C6 (amended): an illegal direction produces no distribution, and for a
legal direction whose moved board is still nibble-valid the probabilities
sum to exactly 1. -/
theorem distribution_sums_to_one :
    ∀ g : Grid, ∀ d : Direction,
      (potential_states_to g d = none ↔ only_move g d = g) ∧
      ∀ m : ChanceDict, boundedGrid (only_move g d) 15 →
        potential_states_to g d = some m → sumVals m = 1 :=
  fun g d => ⟨psTo_none_iff g d, fun m hb hm => sumVals_psTo g d m hb hm⟩

/-- C6 witness: the distribution of a concrete legal move sums to 1. -/
theorem distribution_sums_to_one_witness :
    boundedGrid (only_move simpleSpawnGrid .left) 15 ∧
      sumVals ((potential_states_to simpleSpawnGrid .left).getD []) = 1 :=
  ⟨by decide,
   (distribution_sums_to_one simpleSpawnGrid .left).2
     ((potential_states_to simpleSpawnGrid .left).getD []) (by decide)
     (psTo_some_getD simpleSpawnGrid .left (by decide))⟩

/-- C6 counterexample: on `overflowGrid` (all nibbles in [0,15]) the Left
move is legal, yet the returned probabilities sum to 131/140 ≠ 1: the two
merged 16-cells make two spawn keys collide in the packed encoding, and the
dict write drops 0.9/14 of the mass. -/
theorem distribution_mass_lost :
    potential_states_to overflowGrid .left ≠ none ∧
      (potential_states_to overflowGrid .left).map sumVals = some (131 / 140) ∧
      (potential_states_to overflowGrid .left).map sumVals ≠ some 1 :=
  ⟨by decide, by with_unfolding_all decide, by with_unfolding_all decide⟩

/-- C10: on a nibble-valid moved board, distinct (hole, spawned exponent)
pairs give distinct packed keys, and the distribution of a legal move stores
exactly 2·k entries with pairwise distinct keys. -/
theorem spawn_keys_injective_and_count :
    ∀ g : Grid, ∀ d : Direction, ∀ m : ChanceDict,
      boundedGrid (only_move g d) 15 →
      potential_states_to g d = some m →
      (∀ p ∈ holes (only_move g d), ∀ q ∈ holes (only_move g d), ∀ v w : Nat,
        (v = 1 ∨ v = 2) → (w = 1 ∨ w = 2) → (p, v) ≠ (q, w) →
        build_value (place (only_move g d) p v) ≠ build_value (place (only_move g d) q w)) ∧
      m.length = 2 * (holes (only_move g d)).length ∧
      (m.map Prod.fst).Nodup := by
  intro g d m hb hm
  have hne : only_move g d ≠ g := by
    intro hc
    rw [(psTo_none_iff g d).2 hc] at hm
    exact Option.noConfusion hm
  rw [psTo_of_ne g d hne] at hm
  have hnd : ((potential_fills (only_move g d)).map (fillKey (only_move g d))).Nodup := by
    rw [potential_fills]
    exact fills_keys_nodup_aux (only_move g d) hb (holes (only_move g d)).length
      (holes (only_move g d)) (List.Nodup.filter _ (by decide)) (fun p hp => hp)
  rw [foldl_dictInsert_fresh (fillKey (only_move g d)) (potential_fills (only_move g d)) []
      (by intro e _ kv hkv; exact absurd hkv (List.not_mem_nil kv)) hnd] at hm
  have hm' := Option.some.inj hm
  subst hm'
  refine ⟨?_, ?_, ?_⟩
  · intro p hp q hq v w hv hw hne'
    intro hc
    apply place_fills_ne (only_move g d) p q v w hp hq (by omega) (by omega) hne'
    exact build_value_inj _ _
      (place_bounded _ p v 15 hb (by omega) ((mem_holes _ p).1 hp).1)
      (place_bounded _ q w 15 hb (by omega) ((mem_holes _ q).1 hq).1) hc
  · rw [List.nil_append, List.length_map, potential_fills, potential_fills_aux_length]
  · rw [List.nil_append, List.map_map]
    have hfst : (Prod.fst ∘ fun e : FillEntry => (fillKey (only_move g d) e, e.2)) =
        fillKey (only_move g d) := rfl
    rw [hfst]
    exact hnd

/-- C10 witness: the concrete legal move stores exactly 2·k keys. -/
theorem spawn_keys_injective_and_count_witness :
    ((potential_states_to simpleSpawnGrid .left).getD []).length =
      2 * (holes (only_move simpleSpawnGrid .left)).length :=
  (spawn_keys_injective_and_count simpleSpawnGrid .left
    ((potential_states_to simpleSpawnGrid .left).getD []) (by decide)
    (psTo_some_getD simpleSpawnGrid .left (by decide))).2.1

/-- C5 witness: concrete lookups of the two spawn outcomes at hole (0,1) of
the moved board. -/
theorem successor_probabilities_witness :
    dlookup ((potential_states_to simpleSpawnGrid .left).getD [])
        (build_value (place (only_move simpleSpawnGrid .left) (0, 1) 1)) =
      some (9 / 10 / ((holes (only_move simpleSpawnGrid .left)).length : ℚ)) ∧
    dlookup ((potential_states_to simpleSpawnGrid .left).getD [])
        (build_value (place (only_move simpleSpawnGrid .left) (0, 1) 2)) =
      some (1 / 10 / ((holes (only_move simpleSpawnGrid .left)).length : ℚ)) :=
  successor_probabilities simpleSpawnGrid .left
    ((potential_states_to simpleSpawnGrid .left).getD []) (by decide)
    (psTo_some_getD simpleSpawnGrid .left (by decide)) (0, 1) (by decide)

/-- C9: `_fill_random` raises exactly on boards with no empty cell; on a board
with an empty cell it sets exactly one empty cell to exponent 1 or 2 (the
random draw is injected as the `choice` index). -/
theorem fill_random_spec :
    ∀ g : Grid, ∀ choice : Nat,
      (fill_random g choice = none ↔ ∀ p ∈ POSITIONS, cellAt g p ≠ 0) ∧
      (∀ g' : Grid, fill_random g choice = some g' →
        ∃ p ∈ holes g, ∃ v : Nat, (v = 1 ∨ v = 2) ∧ cellAt g p = 0 ∧ g' = place g p v) := by
  intro g choice
  have hnil : potential_fills g = [] ↔ holes g = [] := by
    rw [potential_fills, potential_fills_aux_eq_nil]
  have hholes : holes g = [] ↔ ∀ p ∈ POSITIONS, cellAt g p ≠ 0 := by
    rw [holes, List.filter_eq_nil_iff]
    constructor
    · intro h p hp hc
      exact absurd (by simp [hc]) (h p hp)
    · intro h p hp
      simp only [decide_eq_true_eq]
      exact h p hp
  constructor
  · rw [fill_random]
    by_cases hf : potential_fills g = []
    · rw [if_pos hf]
      constructor
      · intro _ p hp
        exact hholes.1 (hnil.1 hf) p hp
      · intro _
        rfl
    · simp only [if_neg hf]
      simp only [reduceCtorEq, false_iff]
      intro hall
      exact hf (hnil.2 (hholes.2 hall))
  · intro g' hg'
    rw [fill_random] at hg'
    by_cases hf : potential_fills g = []
    · rw [if_pos hf] at hg'
      exact Option.noConfusion hg'
    · rw [if_neg hf] at hg'
      have hsome : place g ((potential_fills g).getD
            (choice % (potential_fills g).length) (((0,0),0),0)).1.1
          ((potential_fills g).getD
            (choice % (potential_fills g).length) (((0,0),0),0)).1.2 = g' :=
        Option.some.inj hg'
      have hlen : 0 < (potential_fills g).length := List.length_pos.2 hf
      have hidx : choice % (potential_fills g).length < (potential_fills g).length :=
        Nat.mod_lt choice hlen
      have hmem : (potential_fills g).getD
          (choice % (potential_fills g).length) (((0,0),0),0) ∈ potential_fills g := by
        rw [List.getD_eq_getElem?_getD, List.getElem?_eq_getElem hidx]
        exact List.getElem_mem hidx
      rw [potential_fills] at hsome
      rw [potential_fills, mem_potential_fills_aux] at hmem
      rcases hmem with ⟨p, hp, hE | hE⟩
      · rw [hE] at hsome
        exact ⟨p, hp, 1, Or.inl rfl, ((mem_holes g p).1 hp).2, hsome.symm⟩
      · rw [hE] at hsome
        exact ⟨p, hp, 2, Or.inr rfl, ((mem_holes g p).1 hp).2, hsome.symm⟩

/-- C9 witness: on a concrete board the spawner fills the first empty cell,
and on the full board `killedGrid` it raises. -/
theorem fill_random_spec_witness :
    (∃ p ∈ holes simpleSpawnGrid, ∃ v : Nat, (v = 1 ∨ v = 2) ∧
      cellAt simpleSpawnGrid p = 0 ∧
      place simpleSpawnGrid (0, 2) 1 = place simpleSpawnGrid p v) :=
  (fill_random_spec simpleSpawnGrid 0).2 (place simpleSpawnGrid (0, 2) 1) (by decide)
